import Mathlib

set_option maxHeartbeats 4000000
set_option maxRecDepth 100000

/-!
Verification of the agent orchestration core of the JarvisClaw repository:
the task-dependency graph (core/task_graph.py), the executor
(core/executor.py) together with the tool dispatch of
core/module_manager.py, the decision router (core/decision.py), the
planner (core/planner.py), the episodic memory (core/memory/episodic_memory.py)
and the streamed ReAct loop (core/agent.py).

Python dicts are modelled as insertion-ordered association lists (Python
dicts preserve insertion order); dict-key uniqueness corresponds to Nodup
hypotheses on the theorems that need it.  Calls that leave the repository
(the LLM backend, json.loads / json.dumps from the standard library, tool
bodies) are modelled as oracle parameters; everything else is translated
from the source.
-/

namespace JarvisClaw

/-- Simplified JSON values, modelling the Python objects produced by
json.loads (dicts, lists, strings, numbers, booleans, None).  Numbers are
modelled as integers; the int/float distinction plays no role in the code
under verification. -/
inductive Json where
  | null : Json
  | bool (b : Bool) : Json
  | num (n : Int) : Json
  | str (s : String) : Json
  | arr (items : List Json) : Json
  | obj (fields : List (String × Json)) : Json

/-- core/task_graph.py, class TaskStatus. -/
inductive TaskStatus where
  | pending
  | running
  | completed
  | failed
  deriving DecidableEq

/-- core/task_graph.py, class Task.  `args` is the Python argument dict,
modelled as a JSON value.  `result` and `error` start as Python None.
Results are modelled as strings: every value the executor stores as a
result in this model is a string returned by the tool layer. -/
structure Task where
  id : String
  tool : String
  args : Json
  dependencies : List String
  status : TaskStatus := .pending
  result : Option String := none
  error : Option String := none

/-- core/task_graph.py, class TaskGraph.  The Python dict from task id to
Task is modelled as the insertion-ordered list of its values. -/
structure TaskGraph where
  tasks : List Task := []

/-- TaskGraph.add_task: the dict assignment `self.tasks[task.id] = task`
replaces in place when the key exists and appends otherwise. -/
def TaskGraph.add_task (g : TaskGraph) (t : Task) : TaskGraph :=
  if g.tasks.any (fun u => u.id == t.id) then
    ⟨g.tasks.map (fun u => if u.id == t.id then t else u)⟩
  else
    ⟨g.tasks ++ [t]⟩

/-- TaskGraph.get_task: `self.tasks.get(task_id)`. -/
def TaskGraph.get_task (g : TaskGraph) (taskId : String) : Option Task :=
  g.tasks.find? (fun u => u.id == taskId)

/-- The dependency check inside TaskGraph.get_ready_tasks: every listed
dependency id must resolve through `self.tasks.get` to a COMPLETED task
(the Python loop with an early break is the same function as `all`). -/
def TaskGraph.deps_met (g : TaskGraph) (t : Task) : Bool :=
  t.dependencies.all (fun depId =>
    match g.tasks.find? (fun u => u.id == depId) with
    | some dep => dep.status == TaskStatus.completed
    | none => false)

/-- TaskGraph.get_ready_tasks: PENDING tasks whose dependencies are all
COMPLETED, collected in dict (= insertion) order. -/
def TaskGraph.get_ready_tasks (g : TaskGraph) : List Task :=
  g.tasks.filter (fun t => t.status == TaskStatus.pending && g.deps_met t)

/-- TaskGraph.mark_completed: if the id is present, set status COMPLETED
and store the result; no guard against an existing terminal status. -/
def TaskGraph.mark_completed (g : TaskGraph) (taskId : String) (result : String) : TaskGraph :=
  ⟨g.tasks.map (fun t =>
    if t.id == taskId then { t with status := .completed, result := some result } else t)⟩

/-- TaskGraph.mark_failed: if the id is present, set status FAILED and
store the error text. -/
def TaskGraph.mark_failed (g : TaskGraph) (taskId : String) (err : String) : TaskGraph :=
  ⟨g.tasks.map (fun t =>
    if t.id == taskId then { t with status := .failed, error := some err } else t)⟩

/-- The executor statement `task.status = TaskStatus.RUNNING`; the Task
object is aliased inside the graph dict, so this is an in-graph update. -/
def TaskGraph.set_running (g : TaskGraph) (taskId : String) : TaskGraph :=
  ⟨g.tasks.map (fun t => if t.id == taskId then { t with status := .running } else t)⟩

/-- TaskGraph.is_complete: `all(t.status == COMPLETED for t in tasks.values())`. -/
def TaskGraph.is_complete (g : TaskGraph) : Bool :=
  g.tasks.all (fun t => t.status == TaskStatus.completed)

/-- Spec-side readiness (section 3 and 4.1 of the spec): the task is in the
graph, Pending, and every listed dependency identity refers to a task of
the same graph whose status is Completed. -/
def ReadySpec (g : TaskGraph) (t : Task) : Prop :=
  t ∈ g.tasks ∧ t.status = .pending ∧
    ∀ d ∈ t.dependencies, ∃ u ∈ g.tasks, u.id = d ∧ u.status = .completed

theorem deps_met_iff (g : TaskGraph) (t : Task)
    (hnodup : (g.tasks.map Task.id).Nodup) :
    g.deps_met t = true ↔
      ∀ d ∈ t.dependencies, ∃ u ∈ g.tasks, u.id = d ∧ u.status = .completed := by
  unfold TaskGraph.deps_met
  rw [List.all_eq_true]
  constructor
  · intro h d hd
    have hd' := h d hd
    cases hfind : g.tasks.find? (fun u => u.id == d) with
    | none => rw [hfind] at hd'; exact absurd hd' (by simp)
    | some dep =>
      rw [hfind] at hd'
      have hmem := List.mem_of_find?_eq_some hfind
      have hid : dep.id = d := by
        have := List.find?_some hfind
        simpa using this
      exact ⟨dep, hmem, hid, by simpa using hd'⟩
  · intro h d hd
    obtain ⟨u, hu, huid, hust⟩ := h d hd
    cases hfind : g.tasks.find? (fun v => v.id == d) with
    | none =>
      have := List.find?_eq_none.mp hfind u hu
      simp [huid] at this
    | some dep =>
      have hmem := List.mem_of_find?_eq_some hfind
      have hid : dep.id = d := by
        have := List.find?_some hfind
        simpa using this
      have : u = dep := by
        apply List.inj_on_of_nodup_map hnodup hu hmem
        rw [huid, hid]
      subst this
      simp [hust]

/-- C3.  get_ready_tasks returns exactly the tasks satisfying ReadySpec,
as an order-preserving (insertion-order) subsequence of the graph, and a
task with a dangling dependency is never returned. -/
theorem c3_ready_tasks (g : TaskGraph)
    (hnodup : (g.tasks.map Task.id).Nodup) :
    (∀ t, t ∈ g.get_ready_tasks ↔ ReadySpec g t) ∧
    g.get_ready_tasks.Sublist g.tasks ∧
    (∀ t ∈ g.tasks, (∃ d ∈ t.dependencies, ∀ u ∈ g.tasks, u.id ≠ d) →
      t ∉ g.get_ready_tasks) := by
  have hmem : ∀ t, t ∈ g.get_ready_tasks ↔ ReadySpec g t := by
    intro t
    unfold TaskGraph.get_ready_tasks ReadySpec
    rw [List.mem_filter]
    constructor
    · rintro ⟨htl, hp⟩
      have h1 : t.status = TaskStatus.pending := by
        have := (Bool.and_eq_true _ _).mp hp |>.1
        simpa using this
      have h2 := (Bool.and_eq_true _ _).mp hp |>.2
      exact ⟨htl, h1, (deps_met_iff g t hnodup).mp h2⟩
    · rintro ⟨htl, h1, h2⟩
      refine ⟨htl, ?_⟩
      rw [Bool.and_eq_true]
      exact ⟨by simp [h1], (deps_met_iff g t hnodup).mpr h2⟩
  refine ⟨hmem, List.filter_sublist _, ?_⟩
  intro t _ ⟨d, hd, hdang⟩ hready
  obtain ⟨_, _, hdeps⟩ := (hmem t).mp hready
  obtain ⟨u, hu, huid, _⟩ := hdeps d hd
  exact (hdang u hu) huid

/-- Concrete graph from spec section 8: task 1 with no dependencies and
task 2 depending on task 1. -/
def taskOne : Task := { id := "1", tool := "A", args := .obj [], dependencies := [] }

def taskTwo : Task := { id := "2", tool := "B", args := .obj [], dependencies := ["1"] }

def graphOneTwo : TaskGraph := ⟨[taskOne, taskTwo]⟩

/-- Witness for C3 at the concrete two-task graph of spec section 8. -/
theorem c3_ready_tasks_witness :
    graphOneTwo.get_ready_tasks.Sublist graphOneTwo.tasks ∧
    taskOne ∈ graphOneTwo.get_ready_tasks := by
  have h := c3_ready_tasks graphOneTwo (by decide)
  refine ⟨h.2.1, ?_⟩
  refine (h.1 taskOne).mpr ⟨List.mem_cons_self _ _, rfl, ?_⟩
  intro d hd
  simp [taskOne] at hd

/-- Failed task used to exhibit the C7 override. -/
def failedTask : Task :=
  { id := "1", tool := "A", args := .obj [], dependencies := [],
    status := .failed, error := some "boom" }

def failedGraph : TaskGraph := ⟨[failedTask]⟩

/-- C7 counterexample: the claim says a second terminal write via
mark_completed on a Failed task is rejected or ignored, so the task does
not become Completed.  In the code mark_completed overrides the status
unconditionally: on this graph the Failed task becomes Completed. -/
theorem c7_counterexample :
    (failedGraph.get_task "1").map Task.status = some TaskStatus.failed ∧
    ((failedGraph.mark_completed "1" "r").get_task "1").map Task.status
      = some TaskStatus.completed := by
  constructor <;> rfl

/-- C7 amended: calling mark_completed on the identity of a Failed task
silently overrides the status: the task becomes Completed and carries the
new result (idempotence is only by the external executor guard). -/
theorem c7_amended (g : TaskGraph) (taskId result : String) (t : Task)
    (ht : t ∈ g.tasks) (hid : t.id = taskId) (_hfail : t.status = .failed) :
    ∃ u ∈ (g.mark_completed taskId result).tasks,
      u.id = taskId ∧ u.status = .completed ∧ u.result = some result := by
  refine ⟨{ t with status := .completed, result := some result }, ?_, hid, rfl, rfl⟩
  unfold TaskGraph.mark_completed
  have : ({ t with status := .completed, result := some result } : Task)
      = (fun u => if u.id == taskId then
          { u with status := TaskStatus.completed, result := some result } else u) t := by
    simp [hid]
  rw [this]
  exact List.mem_map_of_mem _ ht

/-- Witness for C7 amended at the concrete one-task failed graph. -/
theorem c7_amended_witness :
    ∃ u ∈ (failedGraph.mark_completed "1" "r").tasks,
      u.id = "1" ∧ u.status = .completed ∧ u.result = some "r" :=
  c7_amended failedGraph "1" "r" failedTask (List.mem_cons_self _ _) rfl rfl

/-- core/module_manager.py: the part of the registry that tool dispatch
reads, a mapping from registered tool name to its is_async metadata flag
(ModuleManager.tools together with tool_metadata["is_async"]). -/
structure ModuleManager where
  tools : List (String × Bool) := []

/-- `tool_name in self.tools` plus `tool_metadata.get(name, {}).get("is_async", False)`. -/
def ModuleManager.lookup (mm : ModuleManager) (tool : String) : Option Bool :=
  (mm.tools.find? (fun p => p.1 == tool)).map Prod.snd

/-- Behaviour of one tool body, the oracle for the capability
implementations (which live outside the core): `Except.ok` is a returned
value (already stringified), `Except.error` a raised exception carrying
its text. -/
abbrev ToolRun := String → Json → Except String String

/-- Events yielded by Executor.execute_graph_generator.  The Python events
carry task.to_dict() snapshots; the model keeps the task id, which is the
part the dict identifies the task by. -/
inductive ExecEvent where
  | task_start (taskId : String)
  | task_complete (taskId : String) (result : String)
  | task_failed (taskId : String) (err : String)
  | plan_complete (result : String)
  | error (message : String)

/-- The dict assignment `results[task_id] = result`: replace in place when
the key exists, append otherwise. -/
def dictInsert (rs : List (String × String)) (k v : String) : List (String × String) :=
  if rs.any (fun p => p.1 == k) then rs.map (fun p => if p.1 == k then (k, v) else p)
  else rs ++ [(k, v)]

/-- Invocation of one ready task, combining executor lines 61-70 with
ModuleManager.execute (module_manager.py lines 178-215).  An unregistered
tool takes the sync path (the is_async metadata lookup defaults to False)
and ModuleManager.execute returns a not-found string, a normal value for
the executor.  A sync tool body runs inside ModuleManager.execute, whose
try/except converts a raised exception into the returned string
"Error executing ...", again a normal value.  Only an async tool body runs
at the executor's own await, so only its exception reaches the executor's
try/except. -/
def invokeTask (mm : ModuleManager) (toolRun : ToolRun) (tool : String) (args : Json) :
    Except String String :=
  match mm.lookup tool with
  | none => .ok ("Error: Tool \x27" ++ tool ++ "\x27 not found.")
  | some isAsync =>
    if isAsync then toolRun tool args
    else
      match toolRun tool args with
      | .ok r => .ok r
      | .error e => .ok ("Error executing " ++ tool ++ ": " ++ e)

/-- State threaded through execute_graph_generator: events yielded so far,
the graph (mutated in place in Python), and the results dict. -/
structure ExecState where
  events : List ExecEvent
  graph : TaskGraph
  results : List (String × String)

/-- Body of the `for task in ready_tasks` loop for one task: mark RUNNING,
yield task_start, invoke, then on a returned value mark_completed, record
the result and yield task_complete, and on a raised exception mark_failed
and yield task_failed. -/
def processTask (mm : ModuleManager) (toolRun : ToolRun) (st : ExecState) (t : Task) :
    ExecState :=
  let g1 := st.graph.set_running t.id
  let evs1 := st.events ++ [.task_start t.id]
  match invokeTask mm toolRun t.tool t.args with
  | .ok r =>
      { events := evs1 ++ [.task_complete t.id r],
        graph := g1.mark_completed t.id r,
        results := dictInsert st.results t.id r }
  | .error e =>
      { events := evs1 ++ [.task_failed t.id e],
        graph := g1.mark_failed t.id e,
        results := st.results }

/-- The `for task in ready_tasks` loop (sequential, as in the source). -/
def runReadyTasks (mm : ModuleManager) (toolRun : ToolRun) :
    ExecState → List Task → ExecState
  | st, [] => st
  | st, t :: ts => runReadyTasks mm toolRun (processTask mm toolRun st t) ts

/-- The bounded while loop of execute_graph_generator; fuel counts the
remaining iterations out of max_loops = 50.  The Bool records whether the
loop took the early stall return (in which case the generator ends without
a plan_complete event). -/
def execLoop (mm : ModuleManager) (toolRun : ToolRun) :
    Nat → ExecState → ExecState × Bool
  | 0, st => (st, false)
  | fuel + 1, st =>
    if st.graph.is_complete then (st, false)
    else
      let ready := st.graph.get_ready_tasks
      if ready.isEmpty then
        if st.graph.tasks.all (fun t =>
            t.status == TaskStatus.completed || t.status == TaskStatus.failed) then
          (st, false)
        else
          ({ st with
              events := st.events ++ [.error "Plan stalled (dependency loop or failure)."] },
            true)
      else
        execLoop mm toolRun fuel (runReadyTasks mm toolRun st ready)

/-- Executor.execute_graph_generator up to the end of the while loop. -/
def execute_graph_run (mm : ModuleManager) (toolRun : ToolRun) (g : TaskGraph) :
    ExecState × Bool :=
  execLoop mm toolRun 50 { events := [], graph := g, results := [] }

/-- The full event stream of execute_graph_generator: the loop events,
then, unless the loop took the stall return, the trailing plan_complete
event carrying list(results.values())[-1], or the explicit sentinel when
the results dict is empty. -/
def execute_graph_generator (mm : ModuleManager) (toolRun : ToolRun) (g : TaskGraph) :
    List ExecEvent :=
  if (execute_graph_run mm toolRun g).2 then (execute_graph_run mm toolRun g).1.events
  else
    match (execute_graph_run mm toolRun g).1.results.getLast? with
    | some p => (execute_graph_run mm toolRun g).1.events ++ [.plan_complete p.2]
    | none => (execute_graph_run mm toolRun g).1.events ++ [.plan_complete "No tasks executed."]

theorem mark_failed_status (g : TaskGraph) (taskId e : String) :
    ∀ u ∈ (g.mark_failed taskId e).tasks, u.id = taskId →
      u.status = .failed ∧ u.error = some e := by
  intro u hu hid
  unfold TaskGraph.mark_failed at hu
  simp only [List.mem_map] at hu
  obtain ⟨v, _, hv⟩ := hu
  by_cases h : v.id == taskId
  · rw [if_pos h] at hv; subst hv; exact ⟨rfl, rfl⟩
  · rw [if_neg h] at hv; subst hv
    exact absurd hid (by simpa using h)

theorem mark_completed_status (g : TaskGraph) (taskId r : String) :
    ∀ u ∈ (g.mark_completed taskId r).tasks, u.id = taskId →
      u.status = .completed ∧ u.result = some r := by
  intro u hu hid
  unfold TaskGraph.mark_completed at hu
  simp only [List.mem_map] at hu
  obtain ⟨v, _, hv⟩ := hu
  by_cases h : v.id == taskId
  · rw [if_pos h] at hv; subst hv; exact ⟨rfl, rfl⟩
  · rw [if_neg h] at hv; subst hv
    exact absurd hid (by simpa using h)

/-- Tools and graph used to exhibit the C5 divergence. -/
def taskSingle : Task := { id := "1", tool := "t", args := .obj [], dependencies := [] }

def gSingle : TaskGraph := ⟨[taskSingle]⟩

def mmSync : ModuleManager := ⟨[("t", false)]⟩

def mmAsync : ModuleManager := ⟨[("t", true)]⟩

/-- A tool body that always raises with text "boom". -/
def toolBoom : ToolRun := fun _ _ => .error "boom"

/-- C5 counterexample: the single ready task's capability invocation
raises "boom" (a sync tool), yet the executor emits no task_failed event
and the task ends Completed - ModuleManager.execute swallowed the
exception into a returned error string. -/
theorem c5_counterexample :
    (execute_graph_generator mmSync toolBoom gSingle).countP
        (fun e => match e with | .task_failed _ _ => true | _ => false) = 0 ∧
    ((execute_graph_run mmSync toolBoom gSingle).1.graph.get_task "1").map Task.status
      = some TaskStatus.completed := by
  constructor <;> rfl

/-- C5 amended: when the invoked tool is async, a raised exception reaches
the executor, which marks the task Failed with the error text, emits
task_failed, and the task is not Completed; but when the invoked tool is
sync, ModuleManager.execute converts the raise into a returned
"Error executing ..." string and the executor marks the task Completed
with that text, emitting task_complete. -/
theorem c5_amended (mm : ModuleManager) (toolRun : ToolRun) (st : ExecState)
    (t : Task) (e : String) :
    (mm.lookup t.tool = some true → toolRun t.tool t.args = .error e →
      (processTask mm toolRun st t).events
          = st.events ++ [.task_start t.id, .task_failed t.id e] ∧
      ∀ u ∈ (processTask mm toolRun st t).graph.tasks, u.id = t.id →
        u.status = .failed ∧ u.status ≠ .completed ∧ u.error = some e) ∧
    (mm.lookup t.tool = some false → toolRun t.tool t.args = .error e →
      (processTask mm toolRun st t).events
          = st.events ++ [.task_start t.id,
              .task_complete t.id ("Error executing " ++ t.tool ++ ": " ++ e)] ∧
      ∀ u ∈ (processTask mm toolRun st t).graph.tasks, u.id = t.id →
        u.status = .completed) := by
  constructor
  · intro hasync herr
    have hinv : invokeTask mm toolRun t.tool t.args = .error e := by
      unfold invokeTask
      rw [hasync]
      simpa using herr
    unfold processTask
    rw [hinv]
    refine ⟨by simp, ?_⟩
    intro u hu hid
    have h := mark_failed_status _ t.id e u hu hid
    refine ⟨h.1, ?_, h.2⟩
    rw [h.1]
    decide
  · intro hsync herr
    have hinv : invokeTask mm toolRun t.tool t.args
        = .ok ("Error executing " ++ t.tool ++ ": " ++ e) := by
      unfold invokeTask
      rw [hsync]
      simp [herr]
    unfold processTask
    rw [hinv]
    refine ⟨by simp, ?_⟩
    intro u hu hid
    exact (mark_completed_status _ t.id _ u hu hid).1

/-- Witness for C5 amended: both branches instantiated at the one-task
graph with the always-raising tool. -/
theorem c5_amended_witness :
    (processTask mmAsync toolBoom ⟨[], gSingle, []⟩ taskSingle).events
        = [.task_start "1", .task_failed "1" "boom"] ∧
    (processTask mmSync toolBoom ⟨[], gSingle, []⟩ taskSingle).events
        = [.task_start "1", .task_complete "1" "Error executing t: boom"] := by
  have h1 := (c5_amended mmAsync toolBoom ⟨[], gSingle, []⟩ taskSingle "boom").1 rfl rfl
  have h2 := (c5_amended mmSync toolBoom ⟨[], gSingle, []⟩ taskSingle "boom").2 rfl rfl
  exact ⟨by simpa using h1.1, by simpa using h2.1⟩

theorem update_by_id_ids (l : List Task) (tid : String) (f : Task → Task)
    (hf : ∀ t, (f t).id = t.id) :
    (l.map (fun t => if t.id == tid then f t else t)).map Task.id = l.map Task.id := by
  induction l with
  | nil => rfl
  | cons a l ih =>
    simp only [List.map_cons, ih]
    congr 1
    by_cases h : a.id = tid
    · simp [h, hf]
    · simp [h]

theorem mem_update_by_id_of_ne (l : List Task) (tid : String) (f : Task → Task)
    (u : Task) (hu : u ∈ l) (hne : u.id ≠ tid) :
    u ∈ l.map (fun t => if t.id == tid then f t else t) :=
  List.mem_map.mpr ⟨u, hu, by rw [if_neg (by simpa using hne)]⟩

theorem fmem_update_by_id (l : List Task) (tid : String) (f : Task → Task)
    (u : Task) (hu : u ∈ l) (hid : u.id = tid) :
    f u ∈ l.map (fun t => if t.id == tid then f t else t) :=
  List.mem_map.mpr ⟨u, hu, by rw [if_pos (by simpa using hid)]⟩

theorem set_running_ids (g : TaskGraph) (tid : String) :
    (g.set_running tid).tasks.map Task.id = g.tasks.map Task.id :=
  update_by_id_ids g.tasks tid _ (fun _ => rfl)

theorem mark_completed_ids (g : TaskGraph) (tid r : String) :
    (g.mark_completed tid r).tasks.map Task.id = g.tasks.map Task.id :=
  update_by_id_ids g.tasks tid _ (fun _ => rfl)

theorem mark_failed_ids (g : TaskGraph) (tid e : String) :
    (g.mark_failed tid e).tasks.map Task.id = g.tasks.map Task.id :=
  update_by_id_ids g.tasks tid _ (fun _ => rfl)

/-- A nonempty witness of a dependency cycle among Pending tasks: a set S
of task identities such that each refers to a Pending task of the graph
having at least one dependency back inside S.  The vertex set of any
dependency cycle among Pending tasks satisfies this. -/
def PendingClosed (g : TaskGraph) (S : List String) : Prop :=
  ∀ i ∈ S, ∃ t ∈ g.tasks, t.id = i ∧ t.status = .pending ∧ ∃ d ∈ t.dependencies, d ∈ S

theorem ready_id_not_in_pendingClosed (g : TaskGraph) (S : List String)
    (hnodup : (g.tasks.map Task.id).Nodup) (hpc : PendingClosed g S) :
    ∀ t ∈ g.get_ready_tasks, t.id ∉ S := by
  intro t ht hmem
  obtain ⟨t', ht', hid', _, d, hd, hdS⟩ := hpc t.id hmem
  have hready := ht
  unfold TaskGraph.get_ready_tasks at hready
  rw [List.mem_filter] at hready
  obtain ⟨htl, hp⟩ := hready
  have heq : t' = t := List.inj_on_of_nodup_map hnodup ht' htl hid'
  subst heq
  have hdm : g.deps_met t' = true := ((Bool.and_eq_true _ _).mp hp).2
  unfold TaskGraph.deps_met at hdm
  rw [List.all_eq_true] at hdm
  have hd' := hdm d hd
  obtain ⟨td, htd, hidtd, hpendtd, _⟩ := hpc d hdS
  cases hfind : g.tasks.find? (fun u => u.id == d) with
  | none => rw [hfind] at hd'; exact absurd hd' (by simp)
  | some dep =>
    rw [hfind] at hd'
    have hmemdep := List.mem_of_find?_eq_some hfind
    have hiddep : dep.id = d := by simpa using List.find?_some hfind
    have heq2 : td = dep :=
      List.inj_on_of_nodup_map hnodup htd hmemdep (by rw [hidtd, hiddep])
    rw [← heq2] at hd'
    have hcomp : td.status = TaskStatus.completed := by simpa using hd'
    rw [hpendtd] at hcomp
    cases hcomp

theorem processTask_mem_of_ne (mm : ModuleManager) (toolRun : ToolRun)
    (st : ExecState) (t : Task) (u : Task) (hu : u ∈ st.graph.tasks)
    (hne : u.id ≠ t.id) : u ∈ (processTask mm toolRun st t).graph.tasks := by
  unfold processTask
  cases invokeTask mm toolRun t.tool t.args with
  | ok r =>
    exact mem_update_by_id_of_ne (st.graph.set_running t.id).tasks t.id _ u
      (mem_update_by_id_of_ne st.graph.tasks t.id _ u hu hne) hne
  | error e =>
    exact mem_update_by_id_of_ne (st.graph.set_running t.id).tasks t.id _ u
      (mem_update_by_id_of_ne st.graph.tasks t.id _ u hu hne) hne

theorem processTask_ids (mm : ModuleManager) (toolRun : ToolRun)
    (st : ExecState) (t : Task) :
    (processTask mm toolRun st t).graph.tasks.map Task.id
      = st.graph.tasks.map Task.id := by
  unfold processTask
  cases invokeTask mm toolRun t.tool t.args with
  | ok r =>
    exact (mark_completed_ids (st.graph.set_running t.id) t.id r).trans
      (set_running_ids st.graph t.id)
  | error e =>
    exact (mark_failed_ids (st.graph.set_running t.id) t.id e).trans
      (set_running_ids st.graph t.id)

theorem processTask_pendingClosed (mm : ModuleManager) (toolRun : ToolRun)
    (st : ExecState) (t : Task) (S : List String)
    (hpc : PendingClosed st.graph S) (hnot : t.id ∉ S) :
    PendingClosed (processTask mm toolRun st t).graph S := by
  intro i hi
  obtain ⟨u, hu, huid, hupend, hdep⟩ := hpc i hi
  have hne : u.id ≠ t.id := by
    intro h
    exact hnot (by rw [← h, huid]; exact hi)
  exact ⟨u, processTask_mem_of_ne mm toolRun st t u hu hne, huid, hupend, hdep⟩

theorem runReadyTasks_pendingClosed (mm : ModuleManager) (toolRun : ToolRun)
    (S : List String) (ts : List Task) :
    ∀ st : ExecState, PendingClosed st.graph S → (∀ t ∈ ts, t.id ∉ S) →
      PendingClosed (runReadyTasks mm toolRun st ts).graph S := by
  induction ts with
  | nil => intro st hpc _; exact hpc
  | cons t ts ih =>
    intro st hpc hns
    show PendingClosed (runReadyTasks mm toolRun (processTask mm toolRun st t) ts).graph S
    exact ih _ (processTask_pendingClosed mm toolRun st t S hpc (hns t (List.mem_cons_self _ _)))
      (fun t' ht' => hns t' (List.mem_cons_of_mem _ ht'))

theorem runReadyTasks_ids (mm : ModuleManager) (toolRun : ToolRun) (ts : List Task) :
    ∀ st : ExecState,
      (runReadyTasks mm toolRun st ts).graph.tasks.map Task.id
        = st.graph.tasks.map Task.id := by
  induction ts with
  | nil => intro st; rfl
  | cons t ts ih =>
    intro st
    show (runReadyTasks mm toolRun (processTask mm toolRun st t) ts).graph.tasks.map Task.id = _
    rw [ih, processTask_ids]

theorem execLoop_pendingClosed (mm : ModuleManager) (toolRun : ToolRun)
    (S : List String) (fuel : Nat) :
    ∀ st : ExecState, (st.graph.tasks.map Task.id).Nodup → PendingClosed st.graph S →
      PendingClosed (execLoop mm toolRun fuel st).1.graph S := by
  induction fuel with
  | zero => intro st _ hpc; exact hpc
  | succ fuel ih =>
    intro st hnodup hpc
    rw [execLoop]
    by_cases hc : st.graph.is_complete
    · simp only [hc, if_true]; exact hpc
    · simp only [hc, Bool.false_eq_true, if_false]
      by_cases hr : st.graph.get_ready_tasks.isEmpty
      · simp only [hr, if_true]
        by_cases ht : st.graph.tasks.all (fun t =>
            t.status == TaskStatus.completed || t.status == TaskStatus.failed)
        · simp only [ht, if_true]; exact hpc
        · simp only [ht, Bool.false_eq_true, if_false]; exact hpc
      · simp only [hr, Bool.false_eq_true, if_false]
        apply ih
        · rw [runReadyTasks_ids]; exact hnodup
        · exact runReadyTasks_pendingClosed mm toolRun S _ st hpc
            (ready_id_not_in_pendingClosed st.graph S hnodup hpc)

theorem pendingClosed_not_complete (g : TaskGraph) (S : List String)
    (hne : S ≠ []) (hpc : PendingClosed g S) :
    g.is_complete = false := by
  obtain ⟨i, hi⟩ := List.exists_mem_of_ne_nil S hne
  obtain ⟨t, ht, _, hpend, _⟩ := hpc i hi
  unfold TaskGraph.is_complete
  cases hall : g.tasks.all (fun t => t.status == TaskStatus.completed) with
  | false => rfl
  | true =>
    rw [List.all_eq_true] at hall
    have := hall t ht
    rw [hpend] at this
    exact absurd this (by decide)

/-- C4 amended: for every Task Graph with a dependency cycle among Pending
tasks (witnessed by a PendingClosed identity set), is_complete is false
initially and still false after execute_graph_generator runs - the cycle
tasks never leave Pending - and the run always terminates within the
50-iteration cap (the model is a total function of that fuel).  A stall
error event is emitted in some cyclic graphs but not all: a cyclic graph
whose completable chain consumes the full cap ends with plan_complete and
no stall event (see the counterexample). -/
theorem c4_amended (mm : ModuleManager) (toolRun : ToolRun) (g : TaskGraph)
    (S : List String) (hnodup : (g.tasks.map Task.id).Nodup)
    (hne : S ≠ []) (hpc : PendingClosed g S) :
    g.is_complete = false ∧
    (execute_graph_run mm toolRun g).1.graph.is_complete = false := by
  refine ⟨pendingClosed_not_complete g S hne hpc, ?_⟩
  have h := execLoop_pendingClosed mm toolRun S 50 ⟨[], g, []⟩ hnodup hpc
  exact pendingClosed_not_complete _ S hne h

def cycleA : Task := { id := "a", tool := "f", args := .obj [], dependencies := ["b"] }

def cycleB : Task := { id := "b", tool := "f", args := .obj [], dependencies := ["a"] }

def cycleGraph : TaskGraph := ⟨[cycleA, cycleB]⟩

/-- A tool body that always returns the empty string. -/
def toolOk : ToolRun := fun _ _ => .ok ""

/-- Witness for C4 amended at the two-task cycle graph. -/
theorem c4_amended_witness :
    cycleGraph.is_complete = false ∧
    (execute_graph_run ⟨[]⟩ toolOk cycleGraph).1.graph.is_complete = false :=
  c4_amended ⟨[]⟩ toolOk cycleGraph ["a", "b"] (by decide) (by decide)
    (by unfold PendingClosed; decide)

/-- 50 chained tasks c1 through c50 (each depending on the previous one);
together with the cycle a,b the chain consumes all max_loops = 50 loop
iterations, one completed task per iteration, so the loop exits through
the iteration cap before the stall branch is ever reached. -/
def chainTasks : List Task :=
  (List.range 50).map fun i =>
    { id := "c" ++ toString (i + 1), tool := "f", args := .obj [],
      dependencies := if i = 0 then [] else ["c" ++ toString i] }

def deepCycleGraph : TaskGraph := ⟨chainTasks ++ [cycleA, cycleB]⟩

/-- C4 counterexample: deepCycleGraph has a dependency cycle among Pending
tasks (a and b), yet execute_graph_generator emits no stall error event at
all - it exits through the iteration cap and emits plan_complete - while
the graph is indeed not complete. -/
theorem c4_counterexample :
    (∃ t ∈ deepCycleGraph.tasks, t.id = "a" ∧ t.status = .pending ∧ t.dependencies = ["b"]) ∧
    (∃ t ∈ deepCycleGraph.tasks, t.id = "b" ∧ t.status = .pending ∧ t.dependencies = ["a"]) ∧
    (execute_graph_generator ⟨[]⟩ toolOk deepCycleGraph).countP
      (fun e => match e with | .error _ => true | _ => false) = 0 ∧
    (execute_graph_generator ⟨[]⟩ toolOk deepCycleGraph).countP
      (fun e => match e with | .plan_complete _ => true | _ => false) = 1 ∧
    (execute_graph_run ⟨[]⟩ toolOk deepCycleGraph).1.graph.is_complete = false := by
  refine ⟨⟨cycleA, ?_, rfl, rfl, rfl⟩, ⟨cycleB, ?_, rfl, rfl, rfl⟩, ?_, ?_, ?_⟩
  · exact List.mem_append_right _ (List.mem_cons_self _ _)
  · exact List.mem_append_right _ (List.mem_cons_of_mem _ (List.mem_cons_self _ _))
  · rfl
  · rfl
  · rfl

/-- The results carried by the task_complete events of a stream, in order. -/
def completionResults (evs : List ExecEvent) : List String :=
  evs.filterMap (fun e => match e with | .task_complete _ r => some r | _ => none)

/-- Whether a stream contains a stall error event. -/
def hasErrorEvent (evs : List ExecEvent) : Bool :=
  evs.any (fun e => match e with | .error _ => true | _ => false)

/-- Spec-side aggregate of a run prefix: the result of the most recently
completed task, or the sentinel when no task ever completed. -/
def lastCompletionResult (evs : List ExecEvent) : String :=
  match (completionResults evs).getLast? with
  | some r => r
  | none => "No tasks executed."

theorem completionResults_append (l1 l2 : List ExecEvent) :
    completionResults (l1 ++ l2) = completionResults l1 ++ completionResults l2 :=
  List.filterMap_append _ _ _

theorem getLast?_map_snd (l : List (String × String)) :
    (l.map Prod.snd).getLast? = l.getLast?.map Prod.snd := by
  induction l with
  | nil => rfl
  | cons a l ih =>
    cases l with
    | nil => rfl
    | cons b l => simpa using ih

/-- Invariant threaded through the executor loop: task ids are distinct
(the Python dict keys), and every key of the results dict names a task
that is currently Completed. -/
def ResultsInv (st : ExecState) : Prop :=
  (st.graph.tasks.map Task.id).Nodup ∧
  ∀ k ∈ st.results.map Prod.fst, ∃ u ∈ st.graph.tasks, u.id = k ∧ u.status = .completed

theorem dictInsert_eq_append (rs : List (String × String)) (k v : String)
    (hk : ∀ p ∈ rs, p.1 ≠ k) : dictInsert rs k v = rs ++ [(k, v)] := by
  unfold dictInsert
  have hfalse : rs.any (fun p => p.1 == k) = false := by
    rw [List.any_eq_false]
    intro p hp
    simpa using hk p hp
  rw [hfalse]
  simp

theorem runReadyTasks_spec (mm : ModuleManager) (toolRun : ToolRun) (ts : List Task) :
    ∀ st : ExecState, ResultsInv st →
      (ts.map Task.id).Nodup →
      (∀ t ∈ ts, ∃ u ∈ st.graph.tasks, u.id = t.id ∧ u.status = .pending) →
      ∃ de dr,
        (runReadyTasks mm toolRun st ts).events = st.events ++ de ∧
        (runReadyTasks mm toolRun st ts).results = st.results ++ dr ∧
        completionResults de = dr.map Prod.snd ∧
        ResultsInv (runReadyTasks mm toolRun st ts) ∧
        (runReadyTasks mm toolRun st ts).graph.tasks.map Task.id
          = st.graph.tasks.map Task.id := by
  induction ts with
  | nil =>
    intro st hinv _ _
    exact ⟨[], [], by simp [runReadyTasks], by simp [runReadyTasks], rfl, hinv, rfl⟩
  | cons t ts ih =>
    intro st hinv hnodup hpend
    obtain ⟨u, hu, huid, hupend⟩ := hpend t (List.mem_cons_self _ _)
    have hnodup' := hnodup
    rw [List.map_cons, List.nodup_cons] at hnodup'
    have hknot : ∀ p ∈ st.results, p.1 ≠ t.id := by
      intro p hp hpk
      obtain ⟨w, hw, hwid, hwcomp⟩ := hinv.2 p.1 (List.mem_map_of_mem _ hp)
      have hwu : w = u :=
        List.inj_on_of_nodup_map hinv.1 hw hu (by rw [hwid, hpk, huid])
      rw [hwu, hupend] at hwcomp
      cases hwcomp
    have hpend1 : ∀ t' ∈ ts, ∃ u' ∈ (processTask mm toolRun st t).graph.tasks,
        u'.id = t'.id ∧ u'.status = .pending := by
      intro t' ht'
      obtain ⟨u', hu', hu'id, hu'pend⟩ := hpend t' (List.mem_cons_of_mem _ ht')
      have hne : u'.id ≠ t.id := by
        rw [hu'id]
        intro h
        exact hnodup'.1 (h ▸ List.mem_map_of_mem Task.id ht')
      exact ⟨u', processTask_mem_of_ne mm toolRun st t u' hu' hne, hu'id, hu'pend⟩
    have holdkey : ∀ k ∈ st.results.map Prod.fst,
        ∃ w ∈ (processTask mm toolRun st t).graph.tasks,
          w.id = k ∧ w.status = .completed := by
      intro k hk
      obtain ⟨w, hw, hwid, hwcomp⟩ := hinv.2 k hk
      obtain ⟨p, hp, hpk⟩ := List.mem_map.mp hk
      have hkne : w.id ≠ t.id := by
        rw [hwid, ← hpk]
        exact hknot p hp
      exact ⟨w, processTask_mem_of_ne mm toolRun st t w hw hkne, hwid, hwcomp⟩
    have hstep : ∃ e1 r1,
        (processTask mm toolRun st t).events = st.events ++ e1 ∧
        (processTask mm toolRun st t).results = st.results ++ r1 ∧
        completionResults e1 = r1.map Prod.snd ∧
        ResultsInv (processTask mm toolRun st t) := by
      cases hcall : invokeTask mm toolRun t.tool t.args with
      | ok r =>
        have hres1 : (processTask mm toolRun st t).results = st.results ++ [(t.id, r)] := by
          unfold processTask
          rw [hcall]
          exact dictInsert_eq_append st.results t.id r hknot
        refine ⟨[.task_start t.id, .task_complete t.id r], [(t.id, r)], ?_, hres1, rfl, ?_, ?_⟩
        · unfold processTask
          rw [hcall]
          simp
        · rw [processTask_ids]
          exact hinv.1
        · intro k hk
          rw [hres1, List.map_append, List.mem_append] at hk
          cases hk with
          | inl hk => exact holdkey k hk
          | inr hk =>
            have hk' : k = t.id := by simpa using hk
            refine ⟨{ u with status := .completed, result := some r }, ?_, ?_, rfl⟩
            · unfold processTask
              rw [hcall]
              have h1 : ({ u with status := TaskStatus.running } : Task)
                  ∈ (st.graph.set_running t.id).tasks :=
                fmem_update_by_id st.graph.tasks t.id _ u hu huid
              have h2 := fmem_update_by_id (st.graph.set_running t.id).tasks t.id
                (fun v => { v with status := TaskStatus.completed, result := some r })
                { u with status := TaskStatus.running } h1 huid
              exact h2
            · show u.id = k
              rw [huid, hk']
      | error e =>
        refine ⟨[.task_start t.id, .task_failed t.id e], [], ?_, ?_, rfl, ?_, ?_⟩
        · unfold processTask
          rw [hcall]
          simp
        · unfold processTask
          rw [hcall]
          simp
        · rw [processTask_ids]
          exact hinv.1
        · intro k hk
          have hk' : k ∈ st.results.map Prod.fst := by
            have : (processTask mm toolRun st t).results = st.results := by
              unfold processTask
              rw [hcall]
            rwa [this] at hk
          exact holdkey k hk'
    obtain ⟨e1, r1, hev1, hres1, hcr1, hinv1⟩ := hstep
    obtain ⟨de, dr, hev2, hres2, hcr2, hinv2, hids2⟩ :=
      ih (processTask mm toolRun st t) hinv1 hnodup'.2 hpend1
    refine ⟨e1 ++ de, r1 ++ dr, ?_, ?_, ?_, ?_, ?_⟩
    · show (runReadyTasks mm toolRun (processTask mm toolRun st t) ts).events = _
      rw [hev2, hev1, List.append_assoc]
    · show (runReadyTasks mm toolRun (processTask mm toolRun st t) ts).results = _
      rw [hres2, hres1, List.append_assoc]
    · rw [completionResults_append, hcr1, hcr2, List.map_append]
    · exact hinv2
    · show (runReadyTasks mm toolRun (processTask mm toolRun st t) ts).graph.tasks.map Task.id = _
      rw [hids2, processTask_ids]

theorem execLoop_spec (mm : ModuleManager) (toolRun : ToolRun) (fuel : Nat) :
    ∀ st : ExecState, ResultsInv st →
      ∃ de dr,
        (execLoop mm toolRun fuel st).1.events = st.events ++ de ∧
        (execLoop mm toolRun fuel st).1.results = st.results ++ dr ∧
        completionResults de = dr.map Prod.snd ∧
        ((execLoop mm toolRun fuel st).2 = true →
          hasErrorEvent (execLoop mm toolRun fuel st).1.events = true) := by
  induction fuel with
  | zero =>
    intro st _
    exact ⟨[], [], by simp [execLoop], by simp [execLoop], rfl, by intro h; cases h⟩
  | succ fuel ih =>
    intro st hinv
    rw [execLoop]
    by_cases hc : st.graph.is_complete
    · simp only [hc, if_true]
      exact ⟨[], [], by simp, by simp, rfl, by intro h; cases h⟩
    · simp only [hc, Bool.false_eq_true, if_false]
      by_cases hr : st.graph.get_ready_tasks.isEmpty
      · simp only [hr, if_true]
        by_cases ht : st.graph.tasks.all (fun t =>
            t.status == TaskStatus.completed || t.status == TaskStatus.failed)
        · simp only [ht, if_true]
          exact ⟨[], [], by simp, by simp, rfl, by intro h; cases h⟩
        · simp only [ht, Bool.false_eq_true, if_false]
          refine ⟨[.error "Plan stalled (dependency loop or failure)."], [],
            by simp, by simp, rfl, ?_⟩
          intro _
          apply List.any_eq_true.mpr
          exact ⟨.error "Plan stalled (dependency loop or failure).",
            List.mem_append_right _ (List.mem_cons_self _ _), rfl⟩
      · simp only [hr, Bool.false_eq_true, if_false]
        have hreadynodup : (st.graph.get_ready_tasks.map Task.id).Nodup :=
          ((List.filter_sublist _).map Task.id).nodup hinv.1
        have hreadypend : ∀ t ∈ st.graph.get_ready_tasks,
            ∃ u ∈ st.graph.tasks, u.id = t.id ∧ u.status = .pending := by
          intro t ht
          have := ht
          unfold TaskGraph.get_ready_tasks at this
          rw [List.mem_filter] at this
          refine ⟨t, this.1, rfl, ?_⟩
          have := ((Bool.and_eq_true _ _).mp this.2).1
          simpa using this
        obtain ⟨de1, dr1, hev1, hres1, hcr1, hinv1, _⟩ :=
          runReadyTasks_spec mm toolRun st.graph.get_ready_tasks st hinv hreadynodup hreadypend
        obtain ⟨de2, dr2, hev2, hres2, hcr2, hstall2⟩ :=
          ih (runReadyTasks mm toolRun st st.graph.get_ready_tasks) hinv1
        refine ⟨de1 ++ de2, dr1 ++ dr2, ?_, ?_, ?_, ?_⟩
        · rw [hev2, hev1, List.append_assoc]
        · rw [hres2, hres1, List.append_assoc]
        · rw [completionResults_append, hcr1, hcr2, List.map_append]
        · exact hstall2

/-- C9: for every graph execution ending without a stall error event, the
event stream ends with exactly one plan_complete event, and it carries the
result of the most recently completed task of the run, or the explicit
sentinel "No tasks executed." when no task ever completed. -/
theorem c9_plan_result (mm : ModuleManager) (toolRun : ToolRun) (g : TaskGraph)
    (hnodup : (g.tasks.map Task.id).Nodup)
    (hnoerr : hasErrorEvent (execute_graph_generator mm toolRun g) = false) :
    (execute_graph_generator mm toolRun g).getLast?
      = some (.plan_complete (lastCompletionResult
          ((execute_graph_generator mm toolRun g).dropLast))) := by
  have hinv0 : ResultsInv ⟨[], g, []⟩ := ⟨hnodup, by intro k hk; cases hk⟩
  obtain ⟨de, dr, hev, hres, hcomp, hstall⟩ := execLoop_spec mm toolRun 50 ⟨[], g, []⟩ hinv0
  have hde : (execute_graph_run mm toolRun g).1.events = de := by
    rw [show execute_graph_run mm toolRun g = execLoop mm toolRun 50 ⟨[], g, []⟩ from rfl, hev]
    simp
  have hdr : (execute_graph_run mm toolRun g).1.results = dr := by
    rw [show execute_graph_run mm toolRun g = execLoop mm toolRun 50 ⟨[], g, []⟩ from rfl, hres]
    simp
  by_cases hstalled : (execute_graph_run mm toolRun g).2 = true
  · exfalso
    have herr : hasErrorEvent (execute_graph_run mm toolRun g).1.events = true := hstall hstalled
    have : execute_graph_generator mm toolRun g = (execute_graph_run mm toolRun g).1.events := by
      unfold execute_graph_generator
      rw [if_pos hstalled]
    rw [this, herr] at hnoerr
    cases hnoerr
  · have hgen : execute_graph_generator mm toolRun g
        = match dr.getLast? with
          | some p => de ++ [.plan_complete p.2]
          | none => de ++ [.plan_complete "No tasks executed."] := by
      unfold execute_graph_generator
      rw [if_neg hstalled, hdr, hde]
    cases hlast : dr.getLast? with
    | none =>
      rw [hgen, hlast]
      rw [List.getLast?_concat, List.dropLast_concat]
      have : lastCompletionResult de = "No tasks executed." := by
        unfold lastCompletionResult
        rw [hcomp, getLast?_map_snd, hlast]
        rfl
      rw [this]
    | some p =>
      rw [hgen, hlast]
      rw [List.getLast?_concat, List.dropLast_concat]
      have : lastCompletionResult de = p.2 := by
        unfold lastCompletionResult
        rw [hcomp, getLast?_map_snd, hlast]
        rfl
      rw [this]

/-- Witness for C9 at the empty graph: the run emits no error event and
ends with plan_complete carrying the sentinel. -/
theorem c9_plan_result_witness :
    (execute_graph_generator ⟨[]⟩ toolOk ⟨[]⟩).getLast?
      = some (.plan_complete (lastCompletionResult
          ((execute_graph_generator ⟨[]⟩ toolOk ⟨[]⟩).dropLast))) :=
  c9_plan_result ⟨[]⟩ toolOk ⟨[]⟩ (by decide) (by rfl)

/-- Python str.strip(): remove leading and trailing whitespace.  Modelled
on the character list (Lean's Char.isWhitespace covers the blank, tab and
newline characters relevant here). -/
def pyStrip (s : String) : String :=
  ⟨((s.data.dropWhile Char.isWhitespace).reverse.dropWhile Char.isWhitespace).reverse⟩

/-- If `sep` is a prefix of `l`, the remainder after it. -/
def dropPrefixChars : List Char → List Char → Option (List Char)
  | [], l => some l
  | _ :: _, [] => none
  | c :: cs, d :: ds => if c == d then dropPrefixChars cs ds else none

/-- Python str.split(sep) on character lists, fuel-structured (the fuel is
at least the input length plus one, and sep is nonempty at every use
site, so the fuel never runs out). -/
def splitChars (sep : List Char) : Nat → List Char → List Char → List (List Char)
  | 0, l, acc => [acc.reverse ++ l]
  | _ + 1, [], acc => [acc.reverse]
  | fuel + 1, c :: rest, acc =>
    match dropPrefixChars sep (c :: rest) with
    | some remainder => acc.reverse :: splitChars sep fuel remainder []
    | none => splitChars sep fuel rest (c :: acc)

/-- Python str.split(sep) for a nonempty separator. -/
def pySplit (s sep : String) : List String :=
  (splitChars sep.data (s.data.length + 1) s.data []).map (fun l => ⟨l⟩)

/-- Python substring test `sub in s` for a nonempty separator, through
str.split: the split produces more than one part exactly when the
separator occurs. -/
def pyContains (s sub : String) : Bool := (pySplit s sub).length != 1

/-- The markdown code-fence cleanup shared by DecisionLayer.decide
(decision.py lines 69-73) and Planner.create_plan (planner.py lines
61-65): content.split("```json")[1].split("```")[0].strip(), or the same
with "```", or the content unchanged when no fence is present.  The
index [1] is guarded by the containment test, so the getD default is
unreachable. -/
def extractFence (content : String) : String :=
  if pyContains content "```json" then
    pyStrip ((pySplit ((pySplit content "```json").getD 1 "") "```").headD "")
  else if pyContains content "```" then
    pyStrip ((pySplit ((pySplit content "```").getD 1 "") "```").headD "")
  else content

/-- The literal fallback dict of DecisionLayer.decide. -/
def RESPOND_DIRECTLY_decision (reasoning : String) : Json :=
  .obj [("decision", .str "RESPOND_DIRECTLY"), ("reasoning", .str reasoning)]

/-- core/decision.py, DecisionLayer.decide, as a function of the backend
outcome: Except.error is any exception inside the try block (caught by
the outer handler), Except.ok carries the response content string.
json.loads is the oracle `loads`; none models a raised JSONDecodeError.
Note the parsed value is returned unchecked. -/
def DecisionLayer.decide (loads : String → Option Json)
    (response : Except String String) : Json :=
  match response with
  | .error e => RESPOND_DIRECTLY_decision ("Error in decision layer: " ++ e)
  | .ok content =>
    if pyContains content "Error generating response" then
      RESPOND_DIRECTLY_decision "LLM Error"
    else
      match loads (pyStrip (extractFence content)) with
      | some decisionData => decisionData
      | none => RESPOND_DIRECTLY_decision "Invalid JSON response"

/-- Whether a decide result is the RespondDirectly decision. -/
def isRespondDirectly (j : Json) : Bool :=
  match j with
  | .obj fields =>
    match fields.find? (fun p => p.1 == "decision") with
    | some p =>
      match p.2 with
      | .str s => s == "RESPOND_DIRECTLY"
      | _ => false
    | none => false
  | _ => false

/-- json.loads modelled at the single content used by the C6
counterexample: json.loads on this literal returns this dict. -/
def loadsNoDecision : String → Option Json := fun s =>
  if s == "\x7b\"reasoning\": \"ok\"\x7d" then some (.obj [("reasoning", .str "ok")])
  else none

/-- A json.loads oracle that fails on every input. -/
def loadsNone : String → Option Json := fun _ => none

/-- A json.loads oracle returning the empty JSON object on every input. -/
def loadsConst : String → Option Json := fun _ => some (.obj [])

/-- C6 counterexample: for content that IS valid JSON but lacks a
`decision` field, decide returns the parsed dict unchanged - it is not
RespondDirectly, contrary to the claim. -/
theorem c6_counterexample :
    DecisionLayer.decide loadsNoDecision (.ok "\x7b\"reasoning\": \"ok\"\x7d")
        = .obj [("reasoning", .str "ok")] ∧
    isRespondDirectly
        (DecisionLayer.decide loadsNoDecision (.ok "\x7b\"reasoning\": \"ok\"\x7d"))
        = false := by
  constructor <;> rfl

/-- C6 amended: decide never raises (it is a total function of the backend
outcome); it returns RespondDirectly whenever the backend call raised and
whenever json.loads fails on the cleaned content; but content that parses
as JSON is returned as the parsed value itself, even when it lacks a
`decision` field, so the missing-field case is not normalized to
RespondDirectly. -/
theorem c6_amended (loads : String → Option Json) (content e : String) (j : Json) :
    isRespondDirectly (DecisionLayer.decide loads (.error e)) = true ∧
    (loads (pyStrip (extractFence content)) = none →
      isRespondDirectly (DecisionLayer.decide loads (.ok content)) = true) ∧
    (pyContains content "Error generating response" = false →
      loads (pyStrip (extractFence content)) = some j →
      DecisionLayer.decide loads (.ok content) = j) := by
  refine ⟨rfl, ?_, ?_⟩
  · intro hnone
    simp only [DecisionLayer.decide]
    by_cases h : pyContains content "Error generating response" = true
    · rw [if_pos h]
      rfl
    · rw [if_neg h, hnone]
      rfl
  · intro hnoerr hsome
    simp only [DecisionLayer.decide]
    rw [if_neg (by simp [hnoerr]), hsome]

/-- Witness for C6 amended: all three branches at concrete inputs. -/
theorem c6_amended_witness :
    isRespondDirectly (DecisionLayer.decide loadsNone (.error "down")) = true ∧
    isRespondDirectly (DecisionLayer.decide loadsNone (.ok "not json")) = true ∧
    DecisionLayer.decide loadsConst (.ok "\x7b\x7d") = .obj [] := by
  have h1 := (c6_amended loadsNone "not json" "down" (.obj [])).1
  have h2 := (c6_amended loadsNone "not json" "down" (.obj [])).2.1 rfl
  have h3 := (c6_amended loadsConst "\x7b\x7d" "down" (.obj [])).2.2 rfl rfl
  exact ⟨h1, h2, h3⟩

/-- Dependencies of a plan entry (planner.py line 74): a JSON array of
strings is taken as the dependency list, an absent field defaults to [].
Dependency entries that are not JSON strings are outside this model. -/
def planDeps (v : Json) : List String :=
  match v with
  | .arr xs => xs.filterMap (fun x => match x with | .str s => some s | _ => none)
  | _ => []

/-- planner.py lines 69-77: build the Task list from the parsed plan
array.  none models the exception path (task_def["tool"] raising on a
non-dict entry or on a dict without "tool"), which aborts create_plan
into the empty-graph fallback.  A supplied non-empty string id is kept
(`task_id or uuid`), otherwise a fresh uuid-style id comes from the
oracle, indexed by the entry position. -/
def buildPlanTasks (fresh : Nat → String) : List Json → Nat → Option (List Task)
  | [], _ => some []
  | .obj fields :: rest, n =>
    match fields.find? (fun p => p.1 == "tool") with
    | none => none
    | some toolp =>
      let toolName := match toolp.2 with | .str s => s | _ => ""
      let argsv := match fields.find? (fun p => p.1 == "args") with
        | some p => p.2
        | none => .obj []
      let deps := match fields.find? (fun p => p.1 == "dependencies") with
        | some p => planDeps p.2
        | none => []
      let tid := match fields.find? (fun p => p.1 == "id") with
        | some p =>
          match p.2 with
          | .str s => if s == "" then fresh n else s
          | _ => fresh n
        | none => fresh n
      match buildPlanTasks fresh rest (n + 1) with
      | some ts =>
        some ({ id := tid, tool := toolName, args := argsv, dependencies := deps } :: ts)
      | none => none
  | _ :: _, _ => none

/-- core/planner.py, Planner.create_plan as a function of the backend
outcome and the json.loads oracle.  Except.error models any exception in
the try block (backend failure, missing .content); loads returning none
models json.loads raising; a parsed value that is not a JSON array raises
when its elements are indexed (or yields no dict elements), landing in
the same empty-graph fallback.  The tasks are inserted with add_task. -/
def create_plan (loads : String → Option Json) (fresh : Nat → String)
    (response : Except String String) : TaskGraph :=
  match response with
  | .error _ => TaskGraph.mk []
  | .ok content =>
    match loads (extractFence content) with
    | none => TaskGraph.mk []
    | some j =>
      match j with
      | .arr items =>
        match buildPlanTasks fresh items 0 with
        | some ts => ts.foldl TaskGraph.add_task ⟨[]⟩
        | none => TaskGraph.mk []
      | _ => TaskGraph.mk []

/-- A deterministic stand-in for the uuid fresh-id oracle. -/
def fresh0 : Nat → String := fun n => "task" ++ toString n

/-- C10: on backend failure, on json.loads failure, and on any parsed
value that is not a JSON array, create_plan returns the Task Graph with
zero tasks rather than raising, and that graph reports is_complete = true
immediately. -/
theorem c10_empty_plan (loads : String → Option Json) (fresh : Nat → String)
    (content e : String) (j : Json) :
    (create_plan loads fresh (.error e) = ⟨[]⟩ ∧
      (create_plan loads fresh (.error e)).is_complete = true) ∧
    (loads (extractFence content) = none →
      create_plan loads fresh (.ok content) = ⟨[]⟩ ∧
      (create_plan loads fresh (.ok content)).is_complete = true) ∧
    (loads (extractFence content) = some j → (∀ items, j ≠ .arr items) →
      create_plan loads fresh (.ok content) = ⟨[]⟩ ∧
      (create_plan loads fresh (.ok content)).is_complete = true) := by
  refine ⟨⟨rfl, rfl⟩, ?_, ?_⟩
  · intro hnone
    simp only [create_plan]
    rw [hnone]
    exact ⟨rfl, rfl⟩
  · intro hsome hnotarr
    simp only [create_plan]
    rw [hsome]
    cases j with
    | arr items => exact absurd rfl (hnotarr items)
    | null => exact ⟨rfl, rfl⟩
    | bool b => exact ⟨rfl, rfl⟩
    | num n => exact ⟨rfl, rfl⟩
    | str s => exact ⟨rfl, rfl⟩
    | obj fields => exact ⟨rfl, rfl⟩

/-- Witness for C10: failing loads and a non-array parse at concrete
inputs. -/
theorem c10_empty_plan_witness :
    (create_plan loadsNone fresh0 (.ok "not json") = ⟨[]⟩ ∧
      (create_plan loadsNone fresh0 (.ok "not json")).is_complete = true) ∧
    create_plan loadsConst fresh0 (.ok "\x7b\x7d") = ⟨[]⟩ := by
  have h2 := (c10_empty_plan loadsNone fresh0 "not json" "x" (.obj [])).2.1 rfl
  have h3 := (c10_empty_plan loadsConst fresh0 "\x7b\x7d" "x" (.obj [])).2.2 rfl
    (fun _ h => Json.noConfusion h)
  exact ⟨h2, h3.1⟩

/-- One stored chat message: role and content. -/
abbrev StoredMessage := String × String

/-- core/memory/episodic_memory.py: self.sessions, the dict from chat id
to message list; every mutation ends in a synchronous _save, so each
successive value of this structure is a durable on-disk state. -/
abbrev Sessions := List (String × List StoredMessage)

/-- EpisodicMemory.add_message: create the chat entry if absent, append
the message, save. -/
def add_message (sessions : Sessions) (chatId role content : String) : Sessions :=
  if sessions.any (fun p => p.1 == chatId) then
    sessions.map (fun p => if p.1 == chatId then (p.1, p.2 ++ [(role, content)]) else p)
  else
    sessions ++ [(chatId, [(role, content)])]

/-- EpisodicMemory.get_history: sessions.get(chat_id, []). -/
def get_history (sessions : Sessions) (chatId : String) : List StoredMessage :=
  match sessions.find? (fun p => p.1 == chatId) with
  | some p => p.2
  | none => []

/-- agent.py lines 253-254: the final-answer persistence is two successive
add_message awaits, each saving to disk; the trace lists the three durable
states: before, between the two calls, and after. -/
def persistFinalAnswerTrace (sessions : Sessions) (chatId userInput finalAnswer : String) :
    List Sessions :=
  [sessions,
   add_message sessions chatId "user" userInput,
   add_message (add_message sessions chatId "user" userInput) chatId "assistant" finalAnswer]

theorem find?_append_singleton {α : Type} (p : α → Bool) (x : α) (hx : p x = true) :
    ∀ l : List α, l.any p = false → (l ++ [x]).find? p = some x := by
  intro l
  induction l with
  | nil =>
    intro _
    simp [List.find?, hx]
  | cons a l ih =>
    intro hany
    rw [List.any_cons, Bool.or_eq_false_iff] at hany
    rw [List.cons_append, List.find?_cons_of_neg _ (by simp [hany.1])]
    exact ih hany.2

theorem get_history_eq_nil (l : Sessions) (chatId : String)
    (hany : l.any (fun p => p.1 == chatId) = false) :
    get_history l chatId = [] := by
  unfold get_history
  have hfind : l.find? (fun p => p.1 == chatId) = none := by
    rw [List.find?_eq_none]
    intro p hp
    rw [List.any_eq_false] at hany
    exact hany p hp
  rw [hfind]

theorem get_history_update (chatId role content : String) :
    ∀ l : Sessions, l.any (fun p => p.1 == chatId) = true →
      get_history
          (l.map (fun p => if p.1 == chatId then (p.1, p.2 ++ [(role, content)]) else p))
          chatId
        = get_history l chatId ++ [(role, content)] := by
  intro l
  induction l with
  | nil => intro h; cases h
  | cons a l ih =>
    intro hany
    by_cases h1 : a.1 = chatId
    · rw [List.map_cons, if_pos (by simpa using h1)]
      unfold get_history
      rw [List.find?_cons_of_pos _ (by simpa using h1),
        List.find?_cons_of_pos _ (by simpa using h1)]
    · have hb : (a.1 == chatId) = false := by simpa using h1
      have hany' : l.any (fun p => p.1 == chatId) = true := by
        rw [List.any_cons, hb, Bool.false_or] at hany
        exact hany
      rw [List.map_cons, if_neg (by simp [hb])]
      unfold get_history
      rw [List.find?_cons_of_neg _ (by simp [hb]),
        List.find?_cons_of_neg _ (by simp [hb])]
      exact ih hany'

theorem get_history_add_message (sessions : Sessions) (chatId role content : String) :
    get_history (add_message sessions chatId role content) chatId
      = get_history sessions chatId ++ [(role, content)] := by
  by_cases h : sessions.any (fun p => p.1 == chatId) = true
  · unfold add_message
    rw [if_pos h]
    exact get_history_update chatId role content sessions h
  · have hf : sessions.any (fun p => p.1 == chatId) = false := by
      cases hb : sessions.any (fun p => p.1 == chatId)
      · rfl
      · exact absurd hb h
    unfold add_message
    rw [if_neg h, get_history_eq_nil sessions chatId hf]
    unfold get_history
    rw [find?_append_singleton _ _ (by simp) sessions hf]
    rfl

/-- C8 counterexample: starting from an empty store, after the first of
the two persistence calls the durable store holds ONLY the user message -
an interleaved persisted state the claim says cannot exist. -/
theorem c8_counterexample :
    (persistFinalAnswerTrace [] "chat" "hi" "yo").get? 1
        = some [("chat", [("user", "hi")])] ∧
    get_history ((persistFinalAnswerTrace [] "chat" "hi" "yo").getD 1 []) "chat"
        = [("user", "hi")] := by
  constructor <;> rfl

/-- C8 amended: the user message and the final answer are persisted by two
successive add_message calls, user first; after both, the chat history has
gained exactly the two messages in order, but between the two saves there
is a durable intermediate state whose history holds only the user message,
so the pair is not atomic (a crash or a concurrent reader between the two
saves observes the user message alone). -/
theorem c8_amended (sessions : Sessions) (chatId userInput finalAnswer : String) :
    ∃ mid fin, persistFinalAnswerTrace sessions chatId userInput finalAnswer
        = [sessions, mid, fin] ∧
      get_history mid chatId = get_history sessions chatId ++ [("user", userInput)] ∧
      get_history fin chatId = get_history sessions chatId
          ++ [("user", userInput), ("assistant", finalAnswer)] := by
  refine ⟨_, _, rfl, get_history_add_message sessions chatId "user" userInput, ?_⟩
  rw [get_history_add_message, get_history_add_message]
  simp

/-- One streamed tool-call fragment, one element of delta.tool_calls in
agent.py.  Python None on id, function.name and function.arguments is
modelled as "": the code treats None and "" identically there (`x or ""`
and `if x:` both coalesce them).  The index may genuinely be None. -/
structure ToolCallFragment where
  index : Option Nat
  id : String
  name : String
  arguments : String

/-- One slot of tool_calls_buffer (agent.py lines 141-145); the constant
"type": "function" field is omitted. -/
structure ToolCallEntry where
  id : String
  name : String
  arguments : String

/-- The name/arguments view of a buffer slot. -/
def entryProj (en : ToolCallEntry) : String × String := (en.name, en.arguments)

/-- agent.py lines 149-152: concatenate the nonempty fragment fields onto
a slot. -/
def appendEntry (f : ToolCallFragment) (en : ToolCallEntry) : ToolCallEntry :=
  let en1 := if f.name != "" then { en with name := en.name ++ f.name } else en
  if f.arguments != "" then { en1 with arguments := en1.arguments ++ f.arguments } else en1

/-- In-place update of the element at a position (Python list index
assignment semantics; out of range is unreachable at the call site, which
is guarded). -/
def modifyAt : List ToolCallEntry → Nat → (ToolCallEntry → ToolCallEntry) → List ToolCallEntry
  | [], _, _ => []
  | e :: rest, 0, F => F e :: rest
  | e :: rest, n + 1, F => e :: modifyAt rest n F

/-- agent.py lines 148-152: append a fragment to the slot at
current_tool_index, when that index is in range. -/
def appendToCurrent (buf : List ToolCallEntry) (cur : Int) (f : ToolCallFragment) :
    List ToolCallEntry :=
  if 0 ≤ cur ∧ cur < (buf.length : Int) then modifyAt buf cur.toNat (appendEntry f) else buf

/-- agent.py lines 136-152: process one streamed fragment against the
reconstruction state (tool_calls_buffer, current_tool_index).  A fragment
whose index is present and differs from current_tool_index opens a new
slot; any other fragment is appended to the current slot.
current_tool_index starts at -1, hence the Int. -/
def processFragment (st : List ToolCallEntry × Int) (f : ToolCallFragment) :
    List ToolCallEntry × Int :=
  match f.index with
  | some i =>
    if (i : Int) ≠ st.2 then (st.1 ++ [⟨f.id, f.name, f.arguments⟩], (i : Int))
    else (appendToCurrent st.1 st.2 f, st.2)
  | none => (appendToCurrent st.1 st.2 f, st.2)

/-- The reconstruction over a whole model turn, with the state reset run
uses at the start of each turn: empty buffer, current_tool_index -1. -/
def reconstructToolCalls (frags : List ToolCallFragment) : List ToolCallEntry × Int :=
  frags.foldl processFragment ([], -1)

/-- Concatenation of a list of strings in order. -/
def strConcat : List String → String
  | [] => ""
  | s :: rest => s ++ strConcat rest

/-- The fragments of the stream carrying index k, in arrival order. -/
def fragsAt (frags : List ToolCallFragment) (k : Nat) : List ToolCallFragment :=
  frags.filter (fun f => f.index == some k)

/-- The index sequence arrives in order: starting after index cur, every
fragment carries an index equal to the current one or to its successor
(the fragments of one call are contiguous and a new call uses the next
index, as the streaming API produces them). -/
def orderedFrom : Int → List ToolCallFragment → Bool
  | _, [] => true
  | cur, f :: rest =>
    match f.index with
    | some i => ((i : Int) == cur || (i : Int) == cur + 1) && orderedFrom (i : Int) rest
    | none => false

/-- The last index of the stream (the start value for an empty one). -/
def lastIndexFrom : Int → List ToolCallFragment → Int
  | cur, [] => cur
  | cur, f :: rest =>
    lastIndexFrom (match f.index with | some i => (i : Int) | none => cur) rest

theorem entryProj_appendEntry (f : ToolCallFragment) (en : ToolCallEntry) :
    entryProj (appendEntry f en) = (en.name ++ f.name, en.arguments ++ f.arguments) := by
  unfold appendEntry entryProj
  by_cases hn : f.name != ""
  · by_cases ha : f.arguments != ""
    · simp [hn, ha]
    · have ha' : f.arguments = "" := by simpa using ha
      simp [hn, ha, ha', String.append_empty]
  · have hn' : f.name = "" := by simpa using hn
    by_cases ha : f.arguments != ""
    · simp [hn, ha, hn', String.append_empty]
    · have ha' : f.arguments = "" := by simpa using ha
      simp [hn, ha, hn', ha', String.append_empty]

theorem appendEntry_name (f : ToolCallFragment) (en : ToolCallEntry) :
    (appendEntry f en).name = en.name ++ f.name :=
  congrArg Prod.fst (entryProj_appendEntry f en)

theorem appendEntry_arguments (f : ToolCallFragment) (en : ToolCallEntry) :
    (appendEntry f en).arguments = en.arguments ++ f.arguments :=
  congrArg Prod.snd (entryProj_appendEntry f en)

theorem modifyAt_length (F : ToolCallEntry → ToolCallEntry) :
    ∀ (l : List ToolCallEntry) (c : Nat), (modifyAt l c F).length = l.length := by
  intro l
  induction l with
  | nil => intro c; rfl
  | cons e rest ih =>
    intro c
    cases c with
    | zero => simp [modifyAt]
    | succ n => simp [modifyAt, ih n]

theorem modifyAt_map_getD (f : ToolCallFragment) :
    ∀ (l : List ToolCallEntry) (c k : Nat),
      ((modifyAt l c (appendEntry f)).map entryProj).getD k ("", "")
        = if k = c ∧ k < l.length then
            (((l.map entryProj).getD k ("", "")).1 ++ f.name,
             ((l.map entryProj).getD k ("", "")).2 ++ f.arguments)
          else (l.map entryProj).getD k ("", "") := by
  intro l
  induction l with
  | nil =>
    intro c k
    simp [modifyAt]
  | cons e rest ih =>
    intro c k
    cases c with
    | zero =>
      cases k with
      | zero =>
        simp [modifyAt, entryProj, appendEntry_name, appendEntry_arguments]
      | succ k => simp [modifyAt]
    | succ c =>
      cases k with
      | zero => simp [modifyAt]
      | succ k =>
        simp only [modifyAt, List.map_cons, List.getD_cons_succ, List.length_cons]
        rw [ih c k]
        by_cases h : k = c ∧ k < rest.length
        · rw [if_pos h, if_pos ⟨by rw [h.1], Nat.succ_lt_succ h.2⟩]
        · rw [if_neg h, if_neg (fun hc => h ⟨Nat.succ_injective hc.1,
            Nat.lt_of_succ_lt_succ hc.2⟩)]

theorem map_getD_append (en : ToolCallEntry) :
    ∀ (buf : List ToolCallEntry) (k : Nat),
      ((buf ++ [en]).map entryProj).getD k ("", "")
        = if k < buf.length then (buf.map entryProj).getD k ("", "")
          else if k = buf.length then entryProj en
          else ("", "") := by
  intro buf
  induction buf with
  | nil =>
    intro k
    cases k with
    | zero => simp
    | succ k => simp
  | cons e rest ih =>
    intro k
    cases k with
    | zero => simp
    | succ k =>
      simp only [List.cons_append, List.map_cons, List.getD_cons_succ, List.length_cons]
      rw [ih k]
      by_cases h1 : k < rest.length
      · rw [if_pos h1, if_pos (Nat.succ_lt_succ h1)]
      · rw [if_neg h1, if_neg (fun hc => h1 (Nat.lt_of_succ_lt_succ hc))]
        by_cases h2 : k = rest.length
        · rw [if_pos h2, if_pos (by rw [h2])]
        · rw [if_neg h2, if_neg (fun hc => h2 (Nat.succ_injective hc))]

theorem fragsAt_cons (f : ToolCallFragment) (rest : List ToolCallFragment) (k : Nat) :
    fragsAt (f :: rest) k
      = if f.index == some k then f :: fragsAt rest k else fragsAt rest k :=
  List.filter_cons

theorem processFold_spec (rest : List ToolCallFragment) :
    ∀ (c : Nat) (buf : List ToolCallEntry),
      orderedFrom (c : Int) rest = true →
      buf.length = c + 1 →
      (c : Int) ≤ lastIndexFrom (c : Int) rest ∧
      (∀ k : Nat, lastIndexFrom (c : Int) rest < (k : Int) → fragsAt rest k = []) ∧
      (rest.foldl processFragment (buf, (c : Int))).1.length
          = (lastIndexFrom (c : Int) rest).toNat + 1 ∧
      (∀ k : Nat,
        ((rest.foldl processFragment (buf, (c : Int))).1.map entryProj).getD k ("", "")
          = (((buf.map entryProj).getD k ("", "")).1
               ++ strConcat ((fragsAt rest k).map ToolCallFragment.name),
             ((buf.map entryProj).getD k ("", "")).2
               ++ strConcat ((fragsAt rest k).map ToolCallFragment.arguments))) := by
  induction rest with
  | nil =>
    intro c buf _ hlen
    refine ⟨le_refl _, fun k _ => rfl, ?_, ?_⟩
    · show buf.length = ((c : Int)).toNat + 1
      rw [hlen]
      simp
    · intro k
      show (buf.map entryProj).getD k ("", "") = _
      simp [fragsAt, strConcat, String.append_empty]
  | cons f rest ih =>
    obtain ⟨fidx, fid, fname, fargs⟩ := f
    intro c buf hord hlen
    cases fidx with
    | none =>
      simp only [orderedFrom] at hord
      exact Bool.noConfusion hord
    | some i =>
      simp only [orderedFrom] at hord
      rw [Bool.and_eq_true, Bool.or_eq_true] at hord
      have hord' := hord.2
      have hlast : lastIndexFrom (c : Int)
            ((⟨some i, fid, fname, fargs⟩ : ToolCallFragment) :: rest)
          = lastIndexFrom ((i : Nat) : Int) rest := by
        simp only [lastIndexFrom]
      cases hord.1 with
      | inl hic =>
        have hi : i = c := by
          have : (i : Int) = (c : Int) := by simpa using hic
          exact_mod_cast this
        subst hi
        have hstep : processFragment (buf, ((i : Nat) : Int)) ⟨some i, fid, fname, fargs⟩
            = (modifyAt buf i (appendEntry ⟨some i, fid, fname, fargs⟩), ((i : Nat) : Int)) := by
          simp only [processFragment]
          rw [if_neg (by simp)]
          unfold appendToCurrent
          rw [if_pos ⟨by positivity, by rw [hlen]; exact_mod_cast Nat.lt_succ_self i⟩]
          simp
        obtain ⟨hle, hbound, hlength, hpoint⟩ :=
          ih i (modifyAt buf i (appendEntry ⟨some i, fid, fname, fargs⟩)) hord'
            (by rw [modifyAt_length]; exact hlen)
        refine ⟨?_, ?_, ?_, ?_⟩
        · rw [hlast]; exact hle
        · intro k hk
          rw [hlast] at hk
          have hik : ¬(i = k) := by
            have : ((i : Nat) : Int) < (k : Int) := lt_of_le_of_lt hle hk
            omega
          have hcond : ((⟨some i, fid, fname, fargs⟩ : ToolCallFragment).index == some k)
              = false := by simp [hik]
          rw [fragsAt_cons, hcond]
          simpa using hbound k hk
        · show (rest.foldl processFragment
              (processFragment (buf, ((i : Nat) : Int)) ⟨some i, fid, fname, fargs⟩)).1.length = _
          rw [hstep, hlength, hlast]
        · intro k
          show ((rest.foldl processFragment
              (processFragment (buf, ((i : Nat) : Int))
                ⟨some i, fid, fname, fargs⟩)).1.map entryProj).getD k ("", "") = _
          rw [hstep, hpoint k, modifyAt_map_getD]
          rw [fragsAt_cons]
          by_cases hk : k = i
          · subst hk
            rw [if_pos ⟨rfl, by rw [hlen]; exact Nat.lt_succ_self k⟩]
            rw [if_pos (by simp)]
            simp [strConcat, String.append_assoc]
          · have hcond : ((⟨some i, fid, fname, fargs⟩ : ToolCallFragment).index == some k)
                = false := by
              simp
              omega
            rw [if_neg (fun hc : k = i ∧ k < buf.length => hk hc.1), hcond]
            simp
      | inr hic =>
        have hi : i = c + 1 := by
          have : (i : Int) = (c : Int) + 1 := by simpa using hic
          exact_mod_cast this
        subst hi
        have hstep : processFragment (buf, (c : Int)) ⟨some (c + 1), fid, fname, fargs⟩
            = (buf ++ [⟨fid, fname, fargs⟩], ((c + 1 : Nat) : Int)) := by
          simp only [processFragment]
          rw [if_pos (by push_cast; omega)]
        obtain ⟨hle, hbound, hlength, hpoint⟩ := ih (c + 1)
          (buf ++ [⟨fid, fname, fargs⟩]) hord' (by simp [hlen])
        have hccast : ((c : Int)) < ((c + 1 : Nat) : Int) := by push_cast; omega
        refine ⟨?_, ?_, ?_, ?_⟩
        · rw [hlast]
          exact le_of_lt (lt_of_lt_of_le hccast hle)
        · intro k hk
          rw [hlast] at hk
          have hik : ¬(c + 1 = k) := by
            have : ((c + 1 : Nat) : Int) < (k : Int) := lt_of_le_of_lt hle hk
            omega
          have hcond : ((⟨some (c + 1), fid, fname, fargs⟩ : ToolCallFragment).index
              == some k) = false := by simp [hik]
          rw [fragsAt_cons, hcond]
          simpa using hbound k hk
        · show (rest.foldl processFragment
              (processFragment (buf, (c : Int)) ⟨some (c + 1), fid, fname, fargs⟩)).1.length = _
          rw [hstep, hlength, hlast]
        · intro k
          show ((rest.foldl processFragment
              (processFragment (buf, (c : Int))
                ⟨some (c + 1), fid, fname, fargs⟩)).1.map entryProj).getD k ("", "") = _
          rw [hstep, hpoint k, map_getD_append]
          rw [fragsAt_cons]
          by_cases hk1 : k < buf.length
          · have hcond : ((⟨some (c + 1), fid, fname, fargs⟩ : ToolCallFragment).index
                == some k) = false := by
              simp
              omega
            rw [if_pos hk1, hcond]
            simp
          · rw [if_neg hk1]
            have hbufk : (buf.map entryProj).getD k ("", "") = ("", "") := by
              apply List.getD_eq_default
              rw [List.length_map]
              omega
            by_cases hk2 : k = buf.length
            · have hkc : k = c + 1 := by omega
              rw [if_pos hk2]
              rw [if_pos (by simp [hkc]), hbufk]
              simp [entryProj, strConcat, String.empty_append]
            · have hcond : ((⟨some (c + 1), fid, fname, fargs⟩ : ToolCallFragment).index
                  == some k) = false := by
                simp
                omega
              rw [if_neg hk2, hcond, hbufk]
              simp

/-- C1: for any fragment sequence arriving in order within one model turn
(contiguous runs of indices 0, 1, 2, ..., which is the precondition the
claim states), the reconstructed buffer has one slot per index, the slot
count is the last index plus one, and slot k holds exactly the
concatenation, in arrival order, of the names and of the argument strings
of the fragments carrying index k (positions beyond the buffer read as
the empty pair). -/
theorem c1_stream_reconstruction (frags : List ToolCallFragment)
    (hne : frags ≠ []) (hord : orderedFrom (-1) frags = true) :
    (reconstructToolCalls frags).1.length = (lastIndexFrom (-1) frags).toNat + 1 ∧
    ∀ k : Nat,
      ((reconstructToolCalls frags).1.map entryProj).getD k ("", "")
        = (strConcat ((fragsAt frags k).map ToolCallFragment.name),
           strConcat ((fragsAt frags k).map ToolCallFragment.arguments)) := by
  cases frags with
  | nil => exact absurd rfl hne
  | cons f rest =>
    obtain ⟨fidx, fid, fname, fargs⟩ := f
    cases fidx with
    | none =>
      simp only [orderedFrom] at hord
      exact Bool.noConfusion hord
    | some i =>
      simp only [orderedFrom] at hord
      rw [Bool.and_eq_true, Bool.or_eq_true] at hord
      have h0 : i = 0 := by
        cases hord.1 with
        | inl h =>
          exfalso
          simp at h
        | inr h =>
          have : (i : Int) = -1 + 1 := by simpa using h
          omega
      subst h0
      have hstep : processFragment ([], (-1 : Int)) ⟨some 0, fid, fname, fargs⟩
          = ([⟨fid, fname, fargs⟩], ((0 : Nat) : Int)) := by
        simp only [processFragment]
        rw [if_pos (by decide)]
        rfl
      have hlast : lastIndexFrom (-1 : Int)
            ((⟨some 0, fid, fname, fargs⟩ : ToolCallFragment) :: rest)
          = lastIndexFrom ((0 : Nat) : Int) rest := by
        simp only [lastIndexFrom]
      obtain ⟨hle, hbound, hlength, hpoint⟩ := processFold_spec rest 0
        [⟨fid, fname, fargs⟩] hord.2 rfl
      constructor
      · show (rest.foldl processFragment
            (processFragment ([], -1) ⟨some 0, fid, fname, fargs⟩)).1.length = _
        rw [hstep, hlength, hlast]
      · intro k
        show ((rest.foldl processFragment
            (processFragment ([], -1) ⟨some 0, fid, fname, fargs⟩)).1.map entryProj).getD
              k ("", "") = _
        rw [hstep, hpoint k, fragsAt_cons]
        cases k with
        | zero =>
          rw [if_pos (by simp)]
          simp [entryProj, strConcat]
        | succ k =>
          rw [if_neg (by simp)]
          simp [entryProj, strConcat, String.empty_append]

/-- The three fragments of the claim: (idx 0, name "get"), then two
argument pieces of the same call. -/
def exFrags : List ToolCallFragment :=
  [⟨some 0, "", "get", ""⟩, ⟨some 0, "", "", "\x7b\"a\":"⟩, ⟨some 0, "", "", "1\x7d"⟩]

/-- Witness for C1 at the fragment sequence of the claim: exactly one
reconstructed call, with name "get" and arguments the concatenated JSON
text. -/
theorem c1_stream_reconstruction_witness :
    (reconstructToolCalls exFrags).1.length = 1 ∧
    ((reconstructToolCalls exFrags).1.map entryProj).getD 0 ("", "")
      = ("get", "\x7b\"a\":1\x7d") := by
  have h := c1_stream_reconstruction exFrags (List.cons_ne_nil _ _) (by decide)
  refine ⟨h.1, ?_⟩
  rw [h.2 0]
  rfl

/-- One streamed chunk as Agent.run sees it: either a raw string (the
legacy error path, agent.py line 122) or a delta carrying optional content
and tool-call fragments.  A chunk without choices behaves exactly like a
delta with no content and no tool calls, so it needs no own constructor. -/
inductive StreamChunk where
  | strChunk (s : String)
  | delta (content : Option String) (toolCalls : List ToolCallFragment)

/-- The backend behaviour for one LLM call of the loop: the stream either
yields its chunks and ends, or yields a prefix of chunks and then raises
(landing in the except branch of agent.py line 154). -/
inductive LLMOutcome where
  | chunks (cs : List StreamChunk)
  | raisesAfter (cs : List StreamChunk) (e : String)

/-- Events yielded by Agent.run.  plan_created carries the plan task
dicts, modelled by the tasks themselves. -/
inductive AgentEvent where
  | thinking (step : Nat)
  | thinkingThought (thought : String) (step : Nat)
  | tool_use (name : String) (args : Json)
  | plan_created (plan : List Task)
  | observation (obs : String)
  | final_stream (content : String)
  | final (content : String)

/-- The oracles for everything outside Agent.run: the backend stream per
step, json.loads, the Planner call (Except.error is an exception from
planner.create_plan itself, which planner catches internally, so in
practice this is any raise around the call), json.dumps on the plan
dicts, and _execute_tool_safe (whose result the loop stringifies;
Except.error is an exception escaping it, caught into an "Error: " text).
-/
structure AgentOracles where
  llm : Nat → LLMOutcome
  loads : String → Option Json
  planner : String → Except String TaskGraph
  dumps : List Task → String
  toolExec : String → Json → Except String String

/-- Per-stream state of one loop iteration: accumulated content, the
tool-call reconstruction state, the halted flag (a raw string chunk
yields a final event and returns from run, freezing the rest), and the
events yielded so far within the stream. -/
structure StreamState where
  content : String
  buf : List ToolCallEntry
  cur : Int
  halted : Option String
  events : List AgentEvent

/-- Processing of one stream chunk (agent.py lines 120-152): delta
content is accumulated and re-emitted as a thinking event (skipped when
falsy); tool-call fragments go through processFragment. -/
def processChunk (step : Nat) (st : StreamState) (ch : StreamChunk) : StreamState :=
  if st.halted.isSome then st
  else
    match ch with
    | .strChunk s => { st with halted := some s }
    | .delta contentOpt frags =>
      let st1 := match contentOpt with
        | some s =>
          if s == "" then st
          else
            { st with
                content := st.content ++ s
                events := st.events ++ [AgentEvent.thinkingThought (st.content ++ s) step] }
        | none => st
      let p := frags.foldl processFragment (st1.buf, st1.cur)
      { st1 with buf := p.1, cur := p.2 }

/-- One tool call execution (agent.py lines 180-237), producing the
events of that call.  args falls back to the empty dict when json.loads
fails.  For create_plan the Planner runs on args["description"] (with
user_input as the fallback; a non-dict or non-string shape also falls
back to user_input in this model): on success a plan_created event and a
result that is json.dumps of the plan dicts (the earlier "Plan created
with n steps." assignment is immediately overwritten), on exception a
"Planning Error:" text.  For any other name _execute_tool_safe runs; an
exception escaping it becomes an "Error:" text.  The observation event
carries the result either way. -/
def runToolCall (o : AgentOracles) (userInput : String) (tc : ToolCallEntry) :
    List AgentEvent :=
  let args := match o.loads tc.arguments with
    | some j => j
    | none => Json.obj []
  let useEv := AgentEvent.tool_use tc.name args
  if tc.name == "create_plan" then
    let planDesc := match args with
      | .obj fields =>
        match fields.find? (fun p => p.1 == "description") with
        | some p => match p.2 with | .str s => s | _ => userInput
        | none => userInput
      | _ => userInput
    match o.planner planDesc with
    | .ok graph => [useEv, .plan_created graph.tasks, .observation (o.dumps graph.tasks)]
    | .error e => [useEv, .observation ("Planning Error: " ++ e)]
  else
    match o.toolExec tc.name args with
    | .ok r => [useEv, .observation r]
    | .error e => [useEv, .observation ("Error: " ++ e)]

/-- Agent.run (agent.py lines 101-255): the while loop with
max_steps = 30, one streamed model response per iteration, yielding
thinking at the top of each iteration; a stream that ends with tool calls
executes them all and loops, one without tool calls yields final_stream
and exactly one final and stops.  When the fuel (the remaining steps out
of 30) runs out, the while loop simply ends: nothing after it yields
anything.  The conversation bookkeeping (the messages list) feeds only
the oracles and is omitted; the memory persistence of the final branch is
modelled separately by persistFinalAnswerTrace. -/
def agentSteps (o : AgentOracles) (userInput : String) : Nat → Nat → List AgentEvent
  | 0, _ => []
  | fuel + 1, step =>
    let base : StreamState :=
      { content := "", buf := [], cur := -1, halted := none, events := [] }
    match o.llm step with
    | .raisesAfter cs e =>
      let st := cs.foldl (processChunk step) base
      match st.halted with
      | some s => AgentEvent.thinking step :: st.events ++ [.final s]
      | none => AgentEvent.thinking step :: st.events ++ [.final ("Error: " ++ e)]
    | .chunks cs =>
      let st := cs.foldl (processChunk step) base
      match st.halted with
      | some s => AgentEvent.thinking step :: st.events ++ [.final s]
      | none =>
        if st.buf.isEmpty then
          AgentEvent.thinking step :: st.events
            ++ [.final_stream st.content, .final st.content]
        else
          AgentEvent.thinking step :: st.events
            ++ (st.buf.map (runToolCall o userInput)).flatten
            ++ agentSteps o userInput fuel (step + 1)

/-- Agent.run: 30 steps of budget, starting at step 1. -/
def agentRun (o : AgentOracles) (userInput : String) : List AgentEvent :=
  agentSteps o userInput 30 1

/-- A backend that proposes the same single tool call at every step. -/
def llmAlwaysTool : Nat → LLMOutcome := fun _ =>
  .chunks [.delta none [⟨some 0, "call1", "t", "\x7b\x7d"⟩]]

/-- Oracles for the C2 failing input: every step proposes one call of the
ordinary tool "t" with arguments "\x7b\x7d", and the tool succeeds. -/
def oraclesC2 : AgentOracles :=
  { llm := llmAlwaysTool
    loads := fun s => if s == "\x7b\x7d" then some (Json.obj []) else none
    planner := fun _ => Except.error "unused"
    dumps := fun _ => ""
    toolExec := fun _ _ => Except.ok "ok" }

/-- C2, evaluated at the failing input: with a backend that returns a tool
call at every one of the 30 steps, Agent.run emits 30 iterations of
thinking, tool_use and observation events (90 events) and then its
generator ends with NO final event at all - the while loop exits through
the step cap and no code after it emits the terminal event, contradicting
the claim that every run emits exactly one final event. -/
theorem c2_step_cap_no_final :
    (agentRun oraclesC2 "hi").countP
        (fun e => match e with | .final _ => true | _ => false) = 0 ∧
    (agentRun oraclesC2 "hi").length = 90 ∧
    (agentRun oraclesC2 "hi").countP
        (fun e => match e with | .tool_use _ _ => true | _ => false) = 30 := by
  refine ⟨?_, ?_, ?_⟩ <;> rfl

end JarvisClaw
